import Mathlib

/-!
Shallow embedding of `openbadge_analysis/preprocessing/metadata.py`.

The module turns an iterable of decoded JSON badge records into three
keyed tables:

* `id_to_member_mapping` : per (time bin, device id), the first observed
  member (wearer), optionally gap-filled per device by forward fill;
* `voltages` : per (time bin, member), the arithmetic mean voltage;
* `sample_counts` : per raw record, a sample count keyed by the exact
  normalized timestamp (and optionally the record type).

Modelling conventions: pandas `DataFrame`/`Series` values become sorted
association lists; epoch timestamps are rationals (possibly fractional
seconds); a tz-aware pandas datetime becomes a `ZonedDateTime` (an
absolute instant tagged with a zone name, since `tz_convert` never moves
the instant); Python `KeyError` propagation through the generator
consumed by `pd.DataFrame` becomes `Except`; `float` voltages become
rationals.  Strings are ordered by their character list, matching
lexicographic string order.
-/

namespace Metadata

/-- Model of a tz-aware pandas timestamp: the absolute instant (epoch
seconds, possibly fractional) together with the display zone name. -/
structure ZonedDateTime where
  instant : ℚ
  zone : String
deriving DecidableEq, Repr

/-- Model of `pd.to_datetime(ts, unit='s', utc=True).dt.tz_localize('UTC')`:
the epoch value is interpreted as a UTC instant. -/
def to_datetime_utc (ts : ℚ) : ZonedDateTime :=
  ⟨ts, "UTC"⟩

/-- Model of `.dt.tz_convert(tz)`: re-expresses the same absolute instant
in another zone (pandas `tz_convert` never changes the instant). -/
def tz_convert (tz : String) (d : ZonedDateTime) : ZonedDateTime :=
  ⟨d.instant, tz⟩

/-- The timestamp-normalization step shared by all three pipelines:
localize the epoch value in UTC, then convert to the caller's zone. -/
def normalize_timestamp (tz : String) (ts : ℚ) : ZonedDateTime :=
  tz_convert tz (to_datetime_utc ts)

/-- Default of the `tz` keyword argument of all three pipelines. -/
def tz_default : String := "US/Eastern"

/-- Default of the `time_bins_size` keyword argument (`'1min'`), in
seconds. -/
def time_bins_size_default : Int := 60

/-- Model of `pd.TimeGrouper(time_bins_size)` binning: the bin start is
the largest multiple of the bin width `w` (in seconds) not exceeding the
instant, i.e. `w * ⌊t / w⌋`, computed on the rational `t = num / den`. -/
def binOf (w : Int) (t : ℚ) : Int :=
  w * (Int.fdiv t.num ((t.den : Int) * w))

/-- One decoded line of the identity (proximity metadata) pipeline:
`data['timestamp']`, `data['badge_address']`, `str(data['member'])`. -/
structure ProxRecord where
  timestamp : ℚ
  badge_address : String
  member : String
deriving DecidableEq, Repr

/-- One decoded line of the voltage pipeline: `data['timestamp']`,
`str(data['member'])`, `float(data['voltage'])`. -/
structure VoltRecord where
  timestamp : ℚ
  member : String
  voltage : ℚ
deriving DecidableEq, Repr

/-- One decoded line of the count pipeline.  The envelope `type` and
`data.timestamp`, `data.member` are always present; the two sequence
fields are `Option` because the Python dict lookups `data['rssi_distances']`
and `data['samples']` raise `KeyError` when the key is absent. -/
structure CountRecord where
  type : String
  timestamp : ℚ
  member : String
  rssi_distances : Option (List ℚ)
  samples : Option (List ℚ)
deriving DecidableEq, Repr

/-- String order via the character list (Lean's `String` order is
lexicographic on `data`, but this form is kernel-computable). -/
def strLe (a b : String) : Prop := a.data ≤ b.data

/-- Strict string order via the character list. -/
def strLt (a b : String) : Prop := a.data < b.data

instance strLe.instDec : DecidableRel strLe :=
  fun a b => inferInstanceAs (Decidable (a.data ≤ b.data))

instance strLt.instDec : DecidableRel strLt :=
  fun a b => inferInstanceAs (Decidable (a.data < b.data))

/-- Lexicographic order on keys `(first component, member string)`; this
is the pandas `sort_index` order for a two-level index. -/
def fstStrLe {α : Type} [LinearOrder α] (x y : α × String) : Prop :=
  x.1 < y.1 ∨ (x.1 = y.1 ∧ strLe x.2 y.2)

/-- Lexicographic order on keys `(first component, type, member)`; the
pandas `sort_index` order for the three-level count index. -/
def fstStr2Le {α : Type} [LinearOrder α] (x y : α × String × String) : Prop :=
  x.1 < y.1 ∨ (x.1 = y.1 ∧ (strLt x.2.1 y.2.1 ∨ (x.2.1 = y.2.1 ∧ strLe x.2.2 y.2.2)))

instance fstStrLe.instDec {α : Type} [LinearOrder α] : DecidableRel (@fstStrLe α _) :=
  fun x y => inferInstanceAs (Decidable (_ ∨ _))

instance fstStr2Le.instDec {α : Type} [LinearOrder α] : DecidableRel (@fstStr2Le α _) :=
  fun x y => inferInstanceAs (Decidable (_ ∨ _))

/-- A relation on table entries that compares the keys only. -/
def onKey {κ α : Type} (r : κ → κ → Prop) (p q : κ × α) : Prop := r p.1 q.1

instance onKey.instDec {κ α : Type} {r : κ → κ → Prop} [d : DecidableRel r] :
    DecidableRel (@onKey κ α r) :=
  fun p q => d p.1 q.1

instance onKey.instTotal {κ α : Type} {r : κ → κ → Prop} [t : IsTotal κ r] :
    IsTotal (κ × α) (@onKey κ α r) :=
  ⟨fun p q => t.total p.1 q.1⟩

instance onKey.instTrans {κ α : Type} {r : κ → κ → Prop} [t : IsTrans κ r] :
    IsTrans (κ × α) (@onKey κ α r) :=
  ⟨fun _ _ _ h h' => t.trans _ _ _ h h'⟩

/-- Model of `.sort_index()` / sorted `groupby` output: sort the entries
by their key under the given key order. -/
def sortEntries {κ α : Type} (r : κ → κ → Prop) [DecidableRel r] (l : List (κ × α)) :
    List (κ × α) :=
  List.insertionSort (@onKey κ α r) l

/-- Helper for `firstByKey`: drop every entry whose key was already seen. -/
def firstByKeyAux {κ α : Type} [DecidableEq κ] (seen : List κ) :
    List (κ × α) → List (κ × α)
  | [] => []
  | (k, a) :: rest =>
    if k ∈ seen then firstByKeyAux seen rest
    else (k, a) :: firstByKeyAux (k :: seen) rest

/-- Model of `groupby(...).first()` on a table of non-null values: for
each key, keep the value of the first entry (in original stream order)
with that key. -/
def firstByKey {κ α : Type} [DecidableEq κ] (l : List (κ × α)) : List (κ × α) :=
  firstByKeyAux [] l

/-- First value bound to key `k`, in list order (Python/pandas "first"). -/
def lookupKey {κ α : Type} [DecidableEq κ] (k : κ) : List (κ × α) → Option α
  | [] => none
  | (k', a) :: rest => if k' = k then some a else lookupKey k rest

/-- Stream of `(bin, device id) ↦ member` rows produced by `readfile` plus
timestamp normalization and binning in `id_to_member_mapping`.  The
external `mac_address_to_id` (defined outside this module) is passed as
the pure function `macToId`. -/
def mm_rows (macToId : String → String) (w : Int) (tz : String)
    (records : List ProxRecord) : List ((Int × String) × String) :=
  records.map fun r =>
    ((binOf w (normalize_timestamp tz r.timestamp).instant, macToId r.badge_address),
     r.member)

/-- Values bound to key `k` (the group of `k`), in stream order. -/
def valuesFor {κ α : Type} [DecidableEq κ] (k : κ) (l : List (κ × α)) : List α :=
  (l.filter fun p => decide (p.1 = k)).map Prod.snd

/-- Most recent known value at or before bin `b`: the value of the last
entry (in list order) whose bin is `≤ b`.  On a bin-sorted observation
list this is the value at the greatest observed bin `≤ b`. -/
def lastObsLE : List (Int × String) → Int → Option String
  | [], _ => none
  | (o, m) :: rest, b =>
    if o ≤ b then some ((lastObsLE rest b).getD m) else lastObsLE rest b

/-- The forward-fill walk of the resampler: starting at bin `b` with the
last seen value `last`, emit `n` consecutive bins (step `w`); a bin
present in `obs` contributes its own value, a missing bin repeats the
last seen value. -/
def ffillWalk (w : Int) (obs : List (Int × String)) :
    String → Int → Nat → List (Int × String)
  | _, _, 0 => []
  | last, b, Nat.succ n =>
    match lookupKey b obs with
    | some m => (b, m) :: ffillWalk w obs m (b + w) n
    | none => (b, last) :: ffillWalk w obs last (b + w) n

/-- Model of `resample(time_bins_size).fillna(method='ffill')` inside one
`groupby('id')` group: regenerate the full contiguous bin range from the
group's first to last bin at width `w` and forward-fill missing bins. -/
def resampleFfill (w : Int) (obs : List (Int × String)) : List (Int × String) :=
  match obs with
  | [] => []
  | (b0, m0) :: rest =>
    let bmax := (((b0, m0) :: rest).getLastD (b0, m0)).1
    ffillWalk w ((b0, m0) :: rest) m0 b0 ((bmax - b0).toNat / w.toNat + 1)

/-- Observations of one device `d` in a `(bin, id) ↦ member` table: its
`(bin, member)` pairs in table order. -/
def obsOf (d : String) (s : List ((Int × String) × String)) : List (Int × String) :=
  s.filterMap fun p => if p.1.2 = d then some (p.1.1, p.2) else none

/-- Model of `_id_to_member_mapping_fill_gaps`: per distinct device id,
resample its observations to the full contiguous bin range with forward
fill, then reassemble and sort by `(bin, id)`. -/
def _id_to_member_mapping_fill_gaps (w : Int) (s : List ((Int × String) × String)) :
    List ((Int × String) × String) :=
  sortEntries fstStrLe
    ((((s.map fun p => p.1.2).dedup).map fun d =>
        (resampleFfill w (obsOf d s)).map fun q => ((q.1, d), q.2)).flatten)

/-- Model of `id_to_member_mapping`: bin and key the stream, group by
`(bin, id)` keeping the first member per key, sort, and optionally fill
gaps.  `w` is the bin width in seconds (`time_bins_size`, default 60 =
`'1min'`), `tz` the target zone (default `"US/Eastern"`), `fill_gaps`
defaults to `True` in the source. -/
def id_to_member_mapping (macToId : String → String) (records : List ProxRecord)
    (w : Int) (tz : String) (fill_gaps : Bool) : List ((Int × String) × String) :=
  if fill_gaps then
    _id_to_member_mapping_fill_gaps w (sortEntries fstStrLe (firstByKey (mm_rows macToId w tz records)))
  else
    sortEntries fstStrLe (firstByKey (mm_rows macToId w tz records))

/-- Stream of `(bin, member) ↦ voltage` rows produced by `readfile` plus
timestamp normalization and binning in `voltages`. -/
def volt_rows (w : Int) (tz : String) (records : List VoltRecord) :
    List ((Int × String) × ℚ) :=
  records.map fun r =>
    ((binOf w (normalize_timestamp tz r.timestamp).instant, r.member), r.voltage)

/-- Model of `voltages`: group the `(bin, member)` rows and reduce each
group with the arithmetic mean, output sorted by key. -/
def voltages (records : List VoltRecord) (w : Int) (tz : String) :
    List ((Int × String) × ℚ) :=
  (List.insertionSort (@fstStrLe Int _) (((volt_rows w tz records).map Prod.fst).dedup)).map
    fun k => (k, (valuesFor k (volt_rows w tz records)).sum /
      ((valuesFor k (volt_rows w tz records)).length : ℚ))

/-- Count of one record in `sample_counts.readfile`: length of
`rssi_distances` for `'proximity received'`, length of `samples` for
`'audio received'`, `-1` otherwise; a missing sequence field is the
Python `KeyError` of the dict lookup. -/
def cnt_of (r : CountRecord) : Except String Int :=
  if r.type = "proximity received" then
    match r.rssi_distances with
    | some l => Except.ok (l.length : Int)
    | none => Except.error "KeyError: rssi_distances"
  else if r.type = "audio received" then
    match r.samples with
    | some l => Except.ok (l.length : Int)
    | none => Except.error "KeyError: samples"
  else
    Except.ok (-1)

/-- The rows of `sample_counts` before indexing: one row per record, in
stream order, keyed by the exact normalized datetime (no binning), the
record type and the member.  Consuming the generator stops at the first
raising record, so the whole run aborts on a `KeyError`. -/
def count_rows (tz : String) (records : List CountRecord) :
    Except String (List ((ℚ × String × String) × Int)) :=
  records.mapM fun r =>
    (cnt_of r).map fun c =>
      (((normalize_timestamp tz r.timestamp).instant, r.type, r.member), c)

/-- Output of `sample_counts`: the index is `(datetime, type, member)`
when `keep_type`, else `(datetime, member)` with the type column dropped
before indexing. -/
inductive CountTable where
  | withType (rows : List ((ℚ × String × String) × Int))
  | noType (rows : List ((ℚ × String) × Int))
deriving DecidableEq, Repr

/-- Model of `sample_counts`: per-record counts keyed by the exact
normalized timestamp, sorted on the chosen index; no `time_bins_size`
parameter and no grouping/aggregation step exists in this pipeline. -/
def sample_counts (records : List CountRecord) (tz : String) (keep_type : Bool) :
    Except String CountTable :=
  (count_rows tz records).map fun rows =>
    if keep_type then
      CountTable.withType (sortEntries fstStr2Le rows)
    else
      CountTable.noType
        (sortEntries fstStrLe (rows.map fun p => ((p.1.1, p.1.2.2), p.2)))

lemma str_eq_of_data_eq {s t : String} (h : s.data = t.data) : s = t := by
  cases s
  cases t
  exact congrArg String.mk h

instance fstStrLe.instTotal {α : Type} [LinearOrder α] : IsTotal (α × String) fstStrLe := by
  constructor
  intro x y
  rcases lt_trichotomy x.1 y.1 with h | h | h
  · exact Or.inl (Or.inl h)
  · rcases le_total x.2.data y.2.data with h2 | h2
    · exact Or.inl (Or.inr ⟨h, h2⟩)
    · exact Or.inr (Or.inr ⟨h.symm, h2⟩)
  · exact Or.inr (Or.inl h)

instance fstStrLe.instTrans {α : Type} [LinearOrder α] : IsTrans (α × String) fstStrLe := by
  constructor
  rintro x y z (h | ⟨e, h⟩) (h' | ⟨e', h'⟩)
  · exact Or.inl (h.trans h')
  · exact Or.inl (lt_of_lt_of_eq h e')
  · exact Or.inl (lt_of_eq_of_lt e h')
  · exact Or.inr ⟨e.trans e', le_trans h h'⟩

instance fstStrLe.instAntisymm {α : Type} [LinearOrder α] : IsAntisymm (α × String) fstStrLe := by
  constructor
  rintro ⟨a, s⟩ ⟨b, t⟩ (h | ⟨e, h⟩) (h' | ⟨e', h'⟩)
  · exact absurd h' (lt_asymm h)
  · rw [e'] at h
    exact absurd h (lt_irrefl _)
  · rw [e] at h'
    exact absurd h' (lt_irrefl _)
  · exact Prod.ext e (str_eq_of_data_eq (le_antisymm h h'))

instance fstStr2Le.instTotal {α : Type} [LinearOrder α] :
    IsTotal (α × String × String) fstStr2Le := by
  constructor
  intro x y
  rcases lt_trichotomy x.1 y.1 with h | h | h
  · exact Or.inl (Or.inl h)
  · rcases lt_trichotomy x.2.1.data y.2.1.data with h2 | h2 | h2
    · exact Or.inl (Or.inr ⟨h, Or.inl h2⟩)
    · rcases le_total x.2.2.data y.2.2.data with h3 | h3
      · exact Or.inl (Or.inr ⟨h, Or.inr ⟨str_eq_of_data_eq h2, h3⟩⟩)
      · exact Or.inr (Or.inr ⟨h.symm, Or.inr ⟨(str_eq_of_data_eq h2).symm, h3⟩⟩)
    · exact Or.inr (Or.inr ⟨h.symm, Or.inl h2⟩)
  · exact Or.inr (Or.inl h)

instance fstStr2Le.instTrans {α : Type} [LinearOrder α] :
    IsTrans (α × String × String) fstStr2Le := by
  constructor
  rintro x y z (h | ⟨e, h⟩) (h' | ⟨e', h'⟩)
  · exact Or.inl (h.trans h')
  · exact Or.inl (lt_of_lt_of_eq h e')
  · exact Or.inl (lt_of_eq_of_lt e h')
  · refine Or.inr ⟨e.trans e', ?_⟩
    rcases h with h | ⟨e2, h⟩ <;> rcases h' with h' | ⟨e2', h'⟩
    · exact Or.inl (h.trans h')
    · exact Or.inl (lt_of_lt_of_eq h (congrArg String.data e2'))
    · exact Or.inl (lt_of_eq_of_lt (congrArg String.data e2) h')
    · exact Or.inr ⟨e2.trans e2', le_trans h h'⟩

lemma sortEntries_perm {κ α : Type} (r : κ → κ → Prop) [DecidableRel r]
    (l : List (κ × α)) : (sortEntries r l).Perm l :=
  List.perm_insertionSort _ l

lemma mem_sortEntries {κ α : Type} (r : κ → κ → Prop) [DecidableRel r]
    {l : List (κ × α)} {p : κ × α} : p ∈ sortEntries r l ↔ p ∈ l :=
  (sortEntries_perm r l).mem_iff

lemma sortEntries_sorted {κ α : Type} (r : κ → κ → Prop) [DecidableRel r]
    [IsTotal κ r] [IsTrans κ r] (l : List (κ × α)) :
    List.Pairwise (@onKey κ α r) (sortEntries r l) :=
  List.sorted_insertionSort _ l

lemma sortEntries_keys_nodup {κ α : Type} (r : κ → κ → Prop) [DecidableRel r]
    {l : List (κ × α)} (h : (l.map Prod.fst).Nodup) :
    ((sortEntries r l).map Prod.fst).Nodup :=
  (((sortEntries_perm r l).map Prod.fst).nodup_iff).mpr h

lemma lookupKey_eq_none {κ α : Type} [DecidableEq κ] {k : κ} :
    ∀ {l : List (κ × α)}, lookupKey k l = none ↔ k ∉ l.map Prod.fst
  | [] => by simp [lookupKey]
  | (k', a) :: rest => by
    by_cases h : k' = k
    · simp [lookupKey, h]
    · simp [lookupKey, h, lookupKey_eq_none, Ne.symm h]

lemma mem_of_lookupKey_eq_some {κ α : Type} [DecidableEq κ] {k : κ} {v : α} :
    ∀ {l : List (κ × α)}, lookupKey k l = some v → (k, v) ∈ l
  | [], h => by simp [lookupKey] at h
  | (k', a) :: rest, h => by
    by_cases hk : k' = k
    · subst hk
      simp [lookupKey] at h
      simp [h]
    · simp [lookupKey, hk] at h
      exact List.mem_cons_of_mem _ (mem_of_lookupKey_eq_some h)

lemma lookupKey_eq_some_of_mem {κ α : Type} [DecidableEq κ] {k : κ} {v : α} :
    ∀ {l : List (κ × α)}, (l.map Prod.fst).Nodup → (k, v) ∈ l → lookupKey k l = some v
  | [], _, h => by simp at h
  | (k', a) :: rest, hnd, h => by
    rw [List.map_cons, List.nodup_cons] at hnd
    rcases List.mem_cons.mp h with he | ht
    · obtain ⟨h1, h2⟩ := Prod.mk.inj he
      subst h1
      subst h2
      simp [lookupKey]
    · have hne : k' ≠ k := by
        intro hc
        exact hnd.1 (by rw [hc]; exact List.mem_map.mpr ⟨(k, v), ht, rfl⟩)
      simp only [lookupKey, if_neg hne]
      exact lookupKey_eq_some_of_mem hnd.2 ht

lemma lookupKey_eq_of_perm {κ α : Type} [DecidableEq κ] {k : κ}
    {l₁ l₂ : List (κ × α)} (hp : l₁.Perm l₂) (hnd : (l₁.map Prod.fst).Nodup) :
    lookupKey k l₁ = lookupKey k l₂ := by
  have hnd₂ : (l₂.map Prod.fst).Nodup := ((hp.map Prod.fst).nodup_iff).mp hnd
  cases h : lookupKey k l₁ with
  | none =>
    rw [lookupKey_eq_none] at h
    have : k ∉ l₂.map Prod.fst := fun hm => h (((hp.map Prod.fst).mem_iff).mpr hm)
    exact (lookupKey_eq_none.mpr this).symm
  | some v =>
    exact (lookupKey_eq_some_of_mem hnd₂ (hp.mem_iff.mp (mem_of_lookupKey_eq_some h))).symm

lemma firstByKeyAux_mem {κ α : Type} [DecidableEq κ] {k : κ} {v : α} :
    ∀ {l : List (κ × α)} {seen : List κ},
      (k, v) ∈ firstByKeyAux seen l ↔ (k ∉ seen ∧ lookupKey k l = some v)
  | [], seen => by simp [firstByKeyAux, lookupKey]
  | (k', a) :: rest, seen => by
    constructor
    · intro h
      unfold firstByKeyAux at h
      by_cases hks : k' ∈ seen
      · rw [if_pos hks] at h
        obtain ⟨hns, hlk⟩ := firstByKeyAux_mem.mp h
        have hkk : k' ≠ k := fun hc => hns (hc ▸ hks)
        exact ⟨hns, by simp only [lookupKey, if_neg hkk]; exact hlk⟩
      · rw [if_neg hks] at h
        rcases List.mem_cons.mp h with he | ht
        · obtain ⟨h1, h2⟩ := Prod.mk.inj he
          subst h1
          subst h2
          exact ⟨hks, by simp [lookupKey]⟩
        · obtain ⟨hns, hlk⟩ := firstByKeyAux_mem.mp ht
          have hk : k ∉ seen := fun hc => hns (List.mem_cons_of_mem _ hc)
          have hkk : k' ≠ k := fun hc => hns (hc ▸ List.mem_cons_self k' seen)
          exact ⟨hk, by simp only [lookupKey, if_neg hkk]; exact hlk⟩
    · rintro ⟨hns, hlk⟩
      unfold firstByKeyAux
      by_cases hkk : k' = k
      · subst hkk
        rw [show lookupKey k' ((k', a) :: rest) = some a from by simp [lookupKey]] at hlk
        obtain rfl := Option.some.inj hlk
        rw [if_neg hns]
        exact List.mem_cons_self _ _
      · simp only [lookupKey, if_neg hkk] at hlk
        by_cases hks : k' ∈ seen
        · rw [if_pos hks]
          exact firstByKeyAux_mem.mpr ⟨hns, hlk⟩
        · rw [if_neg hks]
          refine List.mem_cons_of_mem _ (firstByKeyAux_mem.mpr ⟨?_, hlk⟩)
          intro hc
          rcases List.mem_cons.mp hc with hc | hc
          · exact hkk hc.symm
          · exact hns hc

lemma firstByKeyAux_keys_not_seen {κ α : Type} [DecidableEq κ] {l : List (κ × α)}
    {seen : List κ} {k : κ} (h : k ∈ (firstByKeyAux seen l).map Prod.fst) :
    k ∉ seen := by
  rcases List.mem_map.mp h with ⟨⟨k0, v⟩, hmem, hk⟩
  cases hk
  exact (firstByKeyAux_mem.mp hmem).1

lemma firstByKeyAux_keys_nodup {κ α : Type} [DecidableEq κ] :
    ∀ {l : List (κ × α)} {seen : List κ}, ((firstByKeyAux seen l).map Prod.fst).Nodup
  | [], seen => by simp [firstByKeyAux]
  | (k', a) :: rest, seen => by
    unfold firstByKeyAux
    by_cases hks : k' ∈ seen
    · rw [if_pos hks]
      exact firstByKeyAux_keys_nodup
    · rw [if_neg hks, List.map_cons, List.nodup_cons]
      exact ⟨fun h => firstByKeyAux_keys_not_seen h (List.mem_cons_self k' seen),
        firstByKeyAux_keys_nodup⟩

lemma firstByKey_mem {κ α : Type} [DecidableEq κ] {k : κ} {v : α}
    {l : List (κ × α)} : (k, v) ∈ firstByKey l ↔ lookupKey k l = some v := by
  simp [firstByKey, firstByKeyAux_mem]

lemma firstByKey_keys_nodup {κ α : Type} [DecidableEq κ] {l : List (κ × α)} :
    ((firstByKey l).map Prod.fst).Nodup :=
  firstByKeyAux_keys_nodup

lemma lookupKey_firstByKey {κ α : Type} [DecidableEq κ] {k : κ} {l : List (κ × α)} :
    lookupKey k (firstByKey l) = lookupKey k l := by
  cases h : lookupKey k l with
  | none =>
    rw [lookupKey_eq_none] at h ⊢
    intro hm
    simp at hm
    obtain ⟨v, hv⟩ := hm
    exact h (List.mem_map.mpr ⟨(k, v), mem_of_lookupKey_eq_some (firstByKey_mem.mp hv), rfl⟩)
  | some v =>
    exact lookupKey_eq_some_of_mem firstByKey_keys_nodup (firstByKey_mem.mpr h)

lemma except_bind_error {β γ : Type} (e : String) (g : β → Except String γ) :
    (Except.error e : Except String β) >>= g = Except.error e := rfl

lemma except_bind_ok {β γ : Type} (b : β) (g : β → Except String γ) :
    (Except.ok b : Except String β) >>= g = g b := rfl

lemma except_map_ok {β γ : Type} (g : β → γ) (b : β) :
    (Except.ok b : Except String β).map g = Except.ok (g b) := rfl

lemma except_map_error {β γ : Type} (g : β → γ) (e : String) :
    (Except.error e : Except String β).map g = Except.error e := rfl

lemma mapM_except_nil {α β : Type} (f : α → Except String β) :
    ([] : List α).mapM f = Except.ok [] := rfl

lemma mapM_except_cons {α β : Type} (f : α → Except String β) (a : α) (l : List α) :
    (a :: l).mapM f = f a >>= fun b => (l.mapM f).map fun bs => b :: bs := by
  rw [← List.mapM'_eq_mapM, ← List.mapM'_eq_mapM]
  show (f a >>= fun b => Functor.map (List.cons b) (List.mapM' f l)) = _
  cases hfa : f a with
  | error e => rfl
  | ok b =>
    rw [except_bind_ok, except_bind_ok]
    rfl

lemma mapM_error_of_mem {α β : Type} {f : α → Except String β} :
    ∀ {l : List α} {r : α}, r ∈ l → (∃ e, f r = Except.error e) →
      ∃ e, l.mapM f = Except.error e
  | [], r, hmem, _ => absurd hmem (List.not_mem_nil r)
  | a :: t, r, hmem, hbad => by
    cases hfa : f a with
    | error e => exact ⟨e, by rw [mapM_except_cons, hfa, except_bind_error]⟩
    | ok b =>
      rcases List.mem_cons.mp hmem with rfl | ht
      · obtain ⟨e, he⟩ := hbad
        rw [hfa] at he
        exact absurd he (by simp)
      · obtain ⟨e, he⟩ := mapM_error_of_mem ht hbad
        exact ⟨e, by rw [mapM_except_cons, hfa, except_bind_ok, he, except_map_error]⟩

/-- C7: an empty input stream produces an empty output table for each of
the three pipelines (`id_to_member_mapping` with either gap-fill flag,
`voltages`, and `sample_counts` with either `keep_type` flag), and no
error is raised. -/
theorem empty_input_empty_tables :
    (∀ (macToId : String → String) (w : Int) (tz : String) (fg : Bool),
        id_to_member_mapping macToId [] w tz fg = []) ∧
    (∀ (w : Int) (tz : String), voltages [] w tz = []) ∧
    (∀ tz : String, sample_counts [] tz true = Except.ok (CountTable.withType []) ∧
        sample_counts [] tz false = Except.ok (CountTable.noType [])) := by
  refine ⟨fun macToId w tz fg => ?_, fun w tz => rfl, fun tz => ⟨rfl, rfl⟩⟩
  cases fg <;> rfl

/-- C8: timestamp normalization is the deterministic pure function that
tags the numeric epoch-seconds value (a rational, possibly fractional)
as a UTC instant and re-expresses it in the caller-supplied zone; the
normalized value denotes the same absolute instant as the input epoch
value, and the default zone argument of the pipelines is
`"US/Eastern"`. -/
theorem normalize_timestamp_preserves_instant :
    (∀ (tz : String) (ts : ℚ), normalize_timestamp tz ts = ⟨ts, tz⟩) ∧
    (∀ ts : ℚ, (to_datetime_utc ts).zone = "UTC" ∧ (to_datetime_utc ts).instant = ts) ∧
    (∀ (tz : String) (ts : ℚ), (normalize_timestamp tz ts).instant = ts ∧
        (normalize_timestamp tz ts).zone = tz) ∧
    tz_default = "US/Eastern" :=
  ⟨fun _ _ => rfl, fun _ => ⟨rfl, rfl⟩, fun _ _ => ⟨rfl, rfl⟩, rfl⟩

/-- C5: a count-pipeline record whose type is neither
`"proximity received"` nor `"audio received"` yields count `-1`
regardless of the payload's shape, and a stream of such records produces
these `-1` counts as ordinary output rows rather than an error. -/
theorem unknown_type_count_sentinel :
    (∀ r : CountRecord, r.type ≠ "proximity received" → r.type ≠ "audio received" →
        cnt_of r = Except.ok (-1)) ∧
    (∀ (tz : String) (records : List CountRecord),
        (∀ r ∈ records, r.type ≠ "proximity received" ∧ r.type ≠ "audio received") →
        count_rows tz records = Except.ok (records.map fun r =>
          (((normalize_timestamp tz r.timestamp).instant, r.type, r.member), (-1 : Int)))) := by
  constructor
  · intro r h1 h2
    simp [cnt_of, h1, h2]
  · intro tz records h
    induction records with
    | nil => rfl
    | cons r rest ih =>
      have hr := h r (List.mem_cons_self r rest)
      have hcv : cnt_of r = Except.ok (-1) := by simp [cnt_of, hr.1, hr.2]
      have hrest := ih fun x hx => h x (List.mem_cons_of_mem r hx)
      simp only [count_rows] at hrest ⊢
      rw [mapM_except_cons, hcv, except_map_ok, except_bind_ok, hrest, except_map_ok,
        List.map_cons]

/-- Witness for C5 at a concrete record of type `"unknown type"` with an
arbitrary-shaped payload (both sequence fields absent). -/
theorem unknown_type_count_sentinel_witness :
    count_rows "US/Eastern" [⟨"unknown type", 1000, "alice", none, none⟩] =
      Except.ok [((1000, "unknown type", "alice"), -1)] :=
  unknown_type_count_sentinel.2 "US/Eastern"
    [⟨"unknown type", 1000, "alice", none, none⟩] (by decide)

/-- C10: a record with a recognized type but a missing corresponding
sequence field (`rssi_distances` for `"proximity received"`, `samples`
for `"audio received"`) makes the whole `sample_counts` run abort with a
lookup error; no output table is produced. -/
theorem missing_sequence_field_aborts :
    ∀ (tz : String) (kt : Bool) (records : List CountRecord) (r : CountRecord),
      r ∈ records →
      ((r.type = "proximity received" ∧ r.rssi_distances = none) ∨
        (r.type = "audio received" ∧ r.samples = none)) →
      ∃ e, sample_counts records tz kt = Except.error e := by
  intro tz kt records r hmem hbad
  have hc : ∃ e, cnt_of r = Except.error e := by
    rcases hbad with ⟨h1, h2⟩ | ⟨h1, h2⟩
    · exact ⟨"KeyError: rssi_distances", by simp [cnt_of, h1, h2]⟩
    · have hne : r.type ≠ "proximity received" := by
        rw [h1]
        decide
      exact ⟨"KeyError: samples", by simp [cnt_of, hne, h1, h2]⟩
  have hf : ∃ e, ((cnt_of r).map fun c =>
      (((normalize_timestamp tz r.timestamp).instant, r.type, r.member), c)) =
        Except.error e := by
    obtain ⟨e, he⟩ := hc
    exact ⟨e, by rw [he, except_map_error]⟩
  obtain ⟨e, he⟩ := @mapM_error_of_mem CountRecord ((ℚ × String × String) × Int)
    (fun x => (cnt_of x).map fun c =>
      (((normalize_timestamp tz x.timestamp).instant, x.type, x.member), c))
    records r hmem hf
  refine ⟨e, ?_⟩
  simp only [sample_counts, count_rows]
  rw [he, except_map_error]

/-- Witness for C10: a `"proximity received"` record without an
`rssi_distances` field aborts the run. -/
theorem missing_sequence_field_aborts_witness :
    ∃ e, sample_counts [⟨"proximity received", 1000, "alice", none, none⟩]
      "US/Eastern" false = Except.error e :=
  missing_sequence_field_aborts "US/Eastern" false
    [⟨"proximity received", 1000, "alice", none, none⟩] _
    (List.mem_cons_self _ _) (by decide)

/-- C2: with `fill_gaps = False`, the identity table keeps, for every key
`(bin, device id)`, the WearerId of the record that appears first in
original stream order for that key (`lookupKey` returns the first match
in the raw row stream); in particular two records in one bin mapping
device `X` to `"A"` then `"B"` yield `"A"`. -/
theorem first_observed_wins :
    (∀ (macToId : String → String) (records : List ProxRecord) (w : Int) (tz : String)
        (k : Int × String),
        lookupKey k (id_to_member_mapping macToId records w tz false) =
          lookupKey k (mm_rows macToId w tz records)) ∧
    id_to_member_mapping id [⟨65, "X", "A"⟩, ⟨70, "X", "B"⟩] 60 tz_default false =
      [((60, "X"), "A")] := by
  constructor
  · intro macToId records w tz k
    show lookupKey k (sortEntries fstStrLe (firstByKey (mm_rows macToId w tz records))) = _
    rw [lookupKey_eq_of_perm (sortEntries_perm fstStrLe _)
      (sortEntries_keys_nodup fstStrLe firstByKey_keys_nodup)]
    exact lookupKey_firstByKey
  · decide

lemma mapM_ok_forall₂ {α β : Type} {f : α → Except String β} :
    ∀ {l : List α} {bs : List β}, l.mapM f = Except.ok bs →
      List.Forall₂ (fun a b => f a = Except.ok b) l bs
  | [], bs, h => by
    rw [mapM_except_nil] at h
    obtain rfl := (Except.ok.inj h)
    exact List.Forall₂.nil
  | a :: t, bs, h => by
    rw [mapM_except_cons] at h
    cases hfa : f a with
    | error e =>
      rw [hfa, except_bind_error] at h
      exact absurd h (by simp)
    | ok b =>
      rw [hfa, except_bind_ok] at h
      cases hmt : t.mapM f with
      | error e =>
        rw [hmt, except_map_error] at h
        exact absurd h (by simp)
      | ok cs =>
        rw [hmt, except_map_ok] at h
        obtain rfl := (Except.ok.inj h)
        exact List.Forall₂.cons hfa (mapM_ok_forall₂ hmt)

lemma count_rows_keys {tz : String} {records : List CountRecord}
    {rows : List ((ℚ × String × String) × Int)}
    (h : count_rows tz records = Except.ok rows) :
    rows.map Prod.fst = records.map fun r =>
      ((normalize_timestamp tz r.timestamp).instant, r.type, r.member) := by
  have h2 := mapM_ok_forall₂ h
  clear h
  induction h2 with
  | nil => rfl
  | cons hr htail ih =>
    rename_i a b l1 l2
    rw [List.map_cons, List.map_cons, ih]
    cases hca : cnt_of a with
    | error e => rw [hca, except_map_error] at hr; exact absurd hr (by simp)
    | ok c =>
      rw [hca, except_map_ok] at hr
      obtain rfl := (Except.ok.inj hr).symm
      rfl

/-- C3 counterexample: `sample_counts` does not bin by time.  A record at
epoch 90 is keyed by the exact timestamp 90, although the 1-minute bin
start containing it is 60, so the output is keyed by the record's exact
timestamp, not by a bin start (the function also accepts no
`time_bins_size` argument). -/
theorem sample_counts_not_binned_cex :
    sample_counts [⟨"unknown type", 90, "alice", none, none⟩] "US/Eastern" false =
        Except.ok (CountTable.noType [((90, "alice"), -1)]) ∧
    binOf time_bins_size_default 90 = 60 ∧ ((90 : ℚ) ≠ (60 : ℚ)) :=
  ⟨rfl, by decide, by decide⟩

/-- C3 amended: `sample_counts` takes only `tz` and `keep_type` (no
`time_bins_size`) and performs no time binning: whenever it succeeds,
the multiset of output datetimes equals the multiset of the records'
exact normalized timestamps, for both `keep_type` settings. -/
theorem sample_counts_keys_are_exact_timestamps :
    ∀ (tz : String) (records : List CountRecord),
      (∀ t, sample_counts records tz true = Except.ok (CountTable.withType t) →
        (t.map fun p => p.1.1).Perm
          (records.map fun r => (normalize_timestamp tz r.timestamp).instant)) ∧
      (∀ t, sample_counts records tz false = Except.ok (CountTable.noType t) →
        (t.map fun p => p.1.1).Perm
          (records.map fun r => (normalize_timestamp tz r.timestamp).instant)) := by
  intro tz records
  constructor
  · intro t ht
    simp only [sample_counts] at ht
    cases hcr : count_rows tz records with
    | error e => rw [hcr, except_map_error] at ht; exact absurd ht (by simp)
    | ok rows =>
      rw [hcr, except_map_ok] at ht
      obtain ht2 := Except.ok.inj ht
      rw [if_true] at ht2
      obtain rfl := CountTable.withType.inj ht2
      have hperm := (sortEntries_perm fstStr2Le rows).map fun p => p.1.1
      refine hperm.trans ?_
      have hk := count_rows_keys hcr
      have : (rows.map fun p => p.1.1) = (rows.map Prod.fst).map fun q => q.1 := by
        rw [List.map_map]
        rfl
      rw [this, hk, List.map_map]
      rfl
  · intro t ht
    simp only [sample_counts] at ht
    cases hcr : count_rows tz records with
    | error e => rw [hcr, except_map_error] at ht; exact absurd ht (by simp)
    | ok rows =>
      rw [hcr, except_map_ok] at ht
      obtain ht2 := Except.ok.inj ht
      rw [if_neg (by decide)] at ht2
      obtain rfl := CountTable.noType.inj ht2
      have hperm := (sortEntries_perm (@fstStrLe ℚ _)
        (rows.map fun p => ((p.1.1, p.1.2.2), p.2))).map fun p => p.1.1
      refine hperm.trans ?_
      have hk := count_rows_keys hcr
      have : ((rows.map fun p => ((p.1.1, p.1.2.2), p.2)).map fun p => p.1.1) =
          (rows.map Prod.fst).map fun q => q.1 := by
        rw [List.map_map, List.map_map]
        rfl
      rw [this, hk, List.map_map]
      rfl

/-- Witness for the C3 amended theorem at a concrete one-record input. -/
theorem sample_counts_keys_are_exact_timestamps_witness :
    (([((90, "alice"), -1)] : List ((ℚ × String) × Int)).map fun p => p.1.1).Perm
      ([(⟨"unknown type", 90, "alice", none, none⟩ : CountRecord)].map fun r =>
        (normalize_timestamp "US/Eastern" r.timestamp).instant) :=
  (sample_counts_keys_are_exact_timestamps "US/Eastern"
    [⟨"unknown type", 90, "alice", none, none⟩]).2 [((90, "alice"), -1)] rfl

lemma lookupKey_map_keys {κ α : Type} [DecidableEq κ] (f : κ → α) :
    ∀ {ks : List κ} {k : κ}, k ∈ ks →
      lookupKey k (ks.map fun x => (x, f x)) = some (f k)
  | [], k, h => absurd h (List.not_mem_nil k)
  | a :: t, k, h => by
    by_cases hak : a = k
    · subst hak
      simp [lookupKey]
    · rcases List.mem_cons.mp h with rfl | ht
      · exact absurd rfl hak
      · simp only [List.map_cons, lookupKey, if_neg hak]
        exact lookupKey_map_keys f ht

/-- C6: `voltages` groups rows by `(bin, member)` and reports, for every
key present, the arithmetic mean of the group's voltage values; the
output is order-independent (any permutation of the input gives the same
table), the mean of a single reading is that reading, and readings
`{3, 5}` in one bin for one member yield `4`. -/
theorem voltages_mean_aggregation :
    (∀ (records : List VoltRecord) (w : Int) (tz : String) (k : Int × String),
        k ∈ (volt_rows w tz records).map Prod.fst →
        lookupKey k (voltages records w tz) =
          some ((valuesFor k (volt_rows w tz records)).sum /
            ((valuesFor k (volt_rows w tz records)).length : ℚ))) ∧
    (∀ (records records' : List VoltRecord) (w : Int) (tz : String),
        records.Perm records' → voltages records w tz = voltages records' w tz) ∧
    (∀ (r : VoltRecord) (w : Int) (tz : String),
        voltages [r] w tz =
          [((binOf w (normalize_timestamp tz r.timestamp).instant, r.member), r.voltage)]) ∧
    voltages [⟨65, "w1", 3⟩, ⟨70, "w1", 5⟩] 60 tz_default = [((60, "w1"), 4)] := by
  refine ⟨?_, ?_, ?_, ?_⟩
  · intro records w tz k hk
    have hkin : k ∈ List.insertionSort (@fstStrLe Int _)
        (((volt_rows w tz records).map Prod.fst).dedup) := by
      rw [(List.perm_insertionSort _ _).mem_iff, List.mem_dedup]
      exact hk
    exact lookupKey_map_keys _ hkin
  · intro records records' w tz hp
    have hrows : (volt_rows w tz records).Perm (volt_rows w tz records') := hp.map _
    have hkeys := hrows.map Prod.fst
    have hks : List.insertionSort (@fstStrLe Int _)
        (((volt_rows w tz records).map Prod.fst).dedup) =
      List.insertionSort (@fstStrLe Int _)
        (((volt_rows w tz records').map Prod.fst).dedup) :=
      List.eq_of_perm_of_sorted
        (((List.perm_insertionSort _ _).trans hkeys.dedup).trans
          (List.perm_insertionSort _ _).symm)
        (List.sorted_insertionSort _ _) (List.sorted_insertionSort _ _)
    simp only [voltages]
    rw [← hks]
    apply List.map_congr_left
    intro a ha
    have hv : (valuesFor a (volt_rows w tz records)).Perm
        (valuesFor a (volt_rows w tz records')) :=
      (hrows.filter _).map _
    rw [hv.sum_eq, hv.length_eq]
  · intro r w tz
    simp [voltages, volt_rows, valuesFor]
  · have h1 : voltages [⟨65, "w1", 3⟩, ⟨70, "w1", 5⟩] 60 tz_default =
        [((60, "w1"), (3 + 5) / 2)] := by
      simp [voltages, volt_rows, valuesFor, normalize_timestamp, tz_convert,
        to_datetime_utc, binOf]
    rw [h1]
    norm_num

/-- Witness for C6: the mean formula applied at the concrete key
`(60, "w1")`, and order-independence applied to a concrete swap. -/
theorem voltages_mean_aggregation_witness :
    lookupKey ((60 : Int), "w1") (voltages [⟨65, "w1", 3⟩, ⟨70, "w1", 5⟩] 60 "US/Eastern") =
      some ((valuesFor ((60 : Int), "w1")
          (volt_rows 60 "US/Eastern" [⟨65, "w1", 3⟩, ⟨70, "w1", 5⟩])).sum /
        ((valuesFor ((60 : Int), "w1")
          (volt_rows 60 "US/Eastern" [⟨65, "w1", 3⟩, ⟨70, "w1", 5⟩])).length : ℚ)) ∧
    voltages [⟨65, "w1", 3⟩, ⟨70, "w1", 5⟩] 60 "US/Eastern" =
      voltages [⟨70, "w1", 5⟩, ⟨65, "w1", 3⟩] 60 "US/Eastern" :=
  ⟨voltages_mean_aggregation.1 _ 60 "US/Eastern" (60, "w1") (by decide),
   voltages_mean_aggregation.2.1 _ _ 60 "US/Eastern" (by decide)⟩

/-- C4 counterexample: two identical unknown-type records give
`sample_counts` output with two rows carrying the same key, so the
count table is not unique on its full key tuple. -/
theorem outputs_unique_on_key_cex :
    sample_counts [⟨"unknown type", 1000, "alice", none, none⟩,
        ⟨"unknown type", 1000, "alice", none, none⟩] "US/Eastern" false =
      Except.ok (CountTable.noType [((1000, "alice"), -1), ((1000, "alice"), -1)]) ∧
    ¬ (([((1000, "alice"), -1), ((1000, "alice"), -1)] :
        List ((ℚ × String) × Int)).map Prod.fst).Nodup :=
  ⟨rfl, by decide⟩

lemma lastObsLE_none {b : Int} :
    ∀ {obs : List (Int × String)}, (∀ o ∈ obs.map Prod.fst, b < o) →
      lastObsLE obs b = none
  | [], _ => rfl
  | (o, m) :: rest, h => by
    have hb : b < o := h o (by simp)
    simp only [lastObsLE, if_neg (not_le.mpr hb)]
    exact lastObsLE_none fun x hx => h x (by simp [hx])

lemma lastObsLE_lookup {b : Int} {m : String} :
    ∀ {obs : List (Int × String)}, (obs.map Prod.fst).Pairwise (· < ·) →
      lookupKey b obs = some m → lastObsLE obs b = some m
  | [], _, h => by simp [lookupKey] at h
  | (o, m') :: rest, hsort, h => by
    rw [List.map_cons, List.pairwise_cons] at hsort
    by_cases hob : o = b
    · subst hob
      rw [show lookupKey o ((o, m') :: rest) = some m' from by simp [lookupKey]] at h
      obtain rfl := Option.some.inj h
      have hrest : lastObsLE rest o = none := lastObsLE_none fun x hx => hsort.1 x hx
      simp [lastObsLE, hrest]
    · simp only [lookupKey, if_neg hob] at h
      have hlt := lastObsLE_lookup hsort.2 h
      by_cases hle : o ≤ b
      · simp [lastObsLE, hle, hlt]
      · simp [lastObsLE, hle, hlt]

lemma lastObsLE_congr {x y : Int} (hxy : x ≤ y) :
    ∀ {obs : List (Int × String)}, (∀ o ∈ obs.map Prod.fst, o ≤ x ∨ y < o) →
      lastObsLE obs y = lastObsLE obs x
  | [], _ => rfl
  | (o, m) :: rest, h => by
    have ho := h o (by simp)
    have ih := @lastObsLE_congr x y hxy rest fun z hz => h z (by simp [hz])
    rcases ho with ho | ho
    · simp only [lastObsLE, if_pos (le_trans ho hxy), if_pos ho, ih]
    · simp only [lastObsLE, if_neg (not_le.mpr ho),
        if_neg (not_le.mpr (lt_of_le_of_lt hxy ho))]
      exact ih

lemma lastObsLE_isSome {b0 x : Int} (hb : b0 ≤ x) :
    ∀ {obs : List (Int × String)}, b0 ∈ obs.map Prod.fst →
      ∃ v, lastObsLE obs x = some v
  | [], h => by simp at h
  | (o, m) :: rest, h => by
    by_cases hle : o ≤ x
    · exact ⟨(lastObsLE rest x).getD m, by simp [lastObsLE, hle]⟩
    · have h2 : b0 = o ∨ b0 ∈ rest.map Prod.fst := by
        rw [List.map_cons] at h
        exact List.mem_cons.mp h
      rcases h2 with rfl | ht
      · exact absurd (le_trans (le_refl b0) hb) (by omega)
      · obtain ⟨v, hv⟩ := lastObsLE_isSome hb ht
        exact ⟨v, by simp [lastObsLE, hle, hv]⟩


lemma ffillWalk_spec {w : Int} (hw : 0 < w) {obs : List (Int × String)}
    (hsort : (obs.map Prod.fst).Pairwise (· < ·)) (last₀ : String) :
    ∀ (n : Nat) (b : Int) (last : String),
      (∀ o ∈ obs.map Prod.fst, w ∣ (o - b)) →
      (lastObsLE obs (b - w)).getD last₀ = last →
      ffillWalk w obs last b n = (List.range n).map fun i : Nat =>
        (b + w * (i : Int), (lastObsLE obs (b + w * (i : Int))).getD last₀)
  | 0, b, last, _, _ => rfl
  | Nat.succ n, b, last, hcong, hcarry => by
    have hcong' : ∀ o ∈ obs.map Prod.fst, w ∣ (o - (b + w)) := by
      intro o ho
      have h2 : w ∣ (o - b) - w := dvd_sub (hcong o ho) dvd_rfl
      rw [sub_sub] at h2
      exact h2
    cases hlk : lookupKey b obs with
    | some m =>
      have hval : lastObsLE obs b = some m := lastObsLE_lookup hsort hlk
      have hnext := ffillWalk_spec hw hsort last₀ n (b + w) m hcong'
        (by rw [show b + w - w = b from by ring, hval]; rfl)
      simp only [ffillWalk, hlk]
      rw [List.range_succ_eq_map, List.map_cons, hnext, List.map_map]
      congr 1
      · simp [hval]
      · apply List.map_congr_left
        intro i hi
        simp only [Function.comp]
        have harg : b + w + w * (i : Int) = b + w * ((Nat.succ i : Nat) : Int) := by
          push_cast
          ring
        rw [harg]
    | none =>
      have hnotmem : b ∉ obs.map Prod.fst := lookupKey_eq_none.mp hlk
      have hgap : lastObsLE obs b = lastObsLE obs (b - w) := by
        apply lastObsLE_congr (by omega)
        intro o ho
        by_cases hob : o ≤ b - w
        · exact Or.inl hob
        · right
          obtain ⟨c, hc⟩ := hcong o ho
          have hne : o ≠ b := fun hob2 => hnotmem (hob2 ▸ ho)
          have hcpos : 0 < c := by
            rcases lt_trichotomy c 0 with hc0 | rfl | hc0
            · have hcle : c ≤ -1 := by omega
              have : w * c ≤ w * (-1) := by
                exact mul_le_mul_of_nonneg_left hcle (le_of_lt hw)
              omega
            · omega
            · exact hc0
          have hwc : w ≤ w * c := le_mul_of_one_le_right (le_of_lt hw) hcpos
          omega
      have hval : (lastObsLE obs b).getD last₀ = last := by
        rw [hgap]
        exact hcarry
      have hnext := ffillWalk_spec hw hsort last₀ n (b + w) last hcong'
        (by rw [show b + w - w = b from by ring]; exact hval)
      simp only [ffillWalk, hlk]
      rw [List.range_succ_eq_map, List.map_cons, hnext, List.map_map]
      congr 1
      · simp [hval]
      · apply List.map_congr_left
        intro i hi
        simp only [Function.comp]
        have harg : b + w + w * (i : Int) = b + w * ((Nat.succ i : Nat) : Int) := by
          push_cast
          ring
        rw [harg]

lemma resampleFfill_spec {w : Int} (hw : 0 < w) {obs : List (Int × String)}
    {b0 bmax : Int} {m0 mN : String}
    (hsort : (obs.map Prod.fst).Pairwise (· < ·))
    (hdiv : ∀ o ∈ obs.map Prod.fst, w ∣ o)
    (hhead : obs.head? = some (b0, m0)) (hlast : obs.getLast? = some (bmax, mN)) :
    resampleFfill w obs = (List.range ((bmax - b0).toNat / w.toNat + 1)).map
      fun i : Nat => (b0 + w * (i : Int), (lastObsLE obs (b0 + w * (i : Int))).getD m0) := by
  cases obs with
  | nil => simp at hhead
  | cons p rest =>
    obtain ⟨b0', m0'⟩ := p
    rw [List.head?_cons] at hhead
    obtain h0 := Option.some.inj hhead
    obtain ⟨rfl, rfl⟩ := Prod.mk.inj h0
    have hgl : ((b0', m0') :: rest).getLastD (b0', m0') = (bmax, mN) := by
      rw [List.getLastD_eq_getLast?, hlast]
      rfl
    simp only [resampleFfill, hgl]
    apply ffillWalk_spec hw hsort m0'
    · intro o ho
      exact dvd_sub (hdiv o ho) (hdiv b0' (by simp))
    · have hnone : lastObsLE ((b0', m0') :: rest) (b0' - w) = none := by
        apply lastObsLE_none
        intro o ho
        rw [List.map_cons] at ho
        rcases List.mem_cons.mp ho with rfl | ho
        · omega
        · have hlt := (List.pairwise_cons.mp (by simpa using hsort)).1 o ho
          omega
      rw [hnone]
      rfl

lemma mem_obsOf {d : String} {s : List ((Int × String) × String)}
    {x : Int × String} : x ∈ obsOf d s ↔ ((x.1, d), x.2) ∈ s := by
  constructor
  · intro hx
    obtain ⟨p, hp, hpx⟩ := List.mem_filterMap.mp hx
    by_cases hpd : p.1.2 = d
    · rw [if_pos hpd] at hpx
      obtain rfl := Option.some.inj hpx
      have : p = ((p.1.1, d), p.2) := by
        rw [← hpd]
      rw [← this]
      exact hp
    · rw [if_neg hpd] at hpx
      exact absurd hpx (by simp)
  · intro hx
    apply List.mem_filterMap.mpr
    exact ⟨((x.1, d), x.2), hx, by simp⟩

lemma obsOf_sorted {d : String} {s : List ((Int × String) × String)}
    (hpw : s.Pairwise (onKey fstStrLe)) (hnd : (s.map Prod.fst).Nodup) :
    ((obsOf d s).map Prod.fst).Pairwise (· < ·) := by
  rw [List.pairwise_map]
  have hknd : s.Pairwise fun p q => p.1 ≠ q.1 := List.pairwise_map.mp hnd
  have hcomb := hpw.and hknd
  apply List.Pairwise.filterMap _ ?_ hcomb
  rintro p q ⟨hle, hne⟩ x hx y hy
  by_cases hpd : p.1.2 = d
  · by_cases hqd : q.1.2 = d
    · simp only [Option.mem_def, if_pos hpd] at hx
      simp only [Option.mem_def, if_pos hqd] at hy
      obtain rfl := Option.some.inj hx
      obtain rfl := Option.some.inj hy
      rcases hle with hlt | ⟨heq, _⟩
      · exact hlt
      · exact absurd (Prod.ext heq (hpd.trans hqd.symm)) hne
    · simp only [Option.mem_def, if_neg hqd] at hy
      exact absurd hy (by simp)
  · simp only [Option.mem_def, if_neg hpd] at hx
    exact absurd hx (by simp)

lemma output_false_key_dvd {macToId : String → String} {records : List ProxRecord}
    {w : Int} {tz : String} {p : (Int × String) × String}
    (hp : p ∈ sortEntries fstStrLe (firstByKey (mm_rows macToId w tz records))) :
    w ∣ p.1.1 := by
  have hp2 : p ∈ firstByKey (mm_rows macToId w tz records) :=
    (mem_sortEntries _).mp hp
  obtain ⟨k, v⟩ := p
  have hp3 : (k, v) ∈ mm_rows macToId w tz records :=
    mem_of_lookupKey_eq_some (firstByKey_mem.mp hp2)
  obtain ⟨r, hr, heq⟩ := List.mem_map.mp hp3
  have hk : k = (binOf w (normalize_timestamp tz r.timestamp).instant,
      macToId r.badge_address) := by
    obtain ⟨h1, h2⟩ := Prod.mk.inj heq
    exact h1.symm
  rw [hk]
  exact Dvd.intro _ rfl

/-- C1: when gap-filling is requested, the identity table covers, for a
device `d` whose observed series (in the non-filled table) starts at bin
`b0` and ends at bin `bmax`, every bin `b0 + w*k ≤ bmax` of the
configured width `w`, with no missing bin; the value carried at each such
bin is the most recent known WearerId of `d` at or before that bin (for
a bin with no observed record this is the most recent earlier known
value, and for an observed bin its own value). -/
theorem gap_fill_covers_contiguous_range (macToId : String → String)
    (records : List ProxRecord) (w : Int) (tz : String) (d : String)
    (b0 bmax : Int) (m0 mN : String) (hw : 0 < w)
    (hhead : (obsOf d (id_to_member_mapping macToId records w tz false)).head? =
      some (b0, m0))
    (hlast : (obsOf d (id_to_member_mapping macToId records w tz false)).getLast? =
      some (bmax, mN)) :
    ∀ k : Nat, b0 + w * (k : Int) ≤ bmax →
      ∃ v, ((b0 + w * (k : Int), d), v) ∈ id_to_member_mapping macToId records w tz true ∧
        lastObsLE (obsOf d (id_to_member_mapping macToId records w tz false))
          (b0 + w * (k : Int)) = some v := by
  intro k hk
  set S := sortEntries fstStrLe (firstByKey (mm_rows macToId w tz records)) with hS
  have hfalse : id_to_member_mapping macToId records w tz false = S := rfl
  have htrue : id_to_member_mapping macToId records w tz true =
      _id_to_member_mapping_fill_gaps w S := rfl
  rw [hfalse] at hhead hlast ⊢
  rw [htrue]
  have hpw : S.Pairwise (onKey fstStrLe) := by
    rw [hS]
    exact sortEntries_sorted _ _
  have hnd : (S.map Prod.fst).Nodup := by
    rw [hS]
    exact sortEntries_keys_nodup _ firstByKey_keys_nodup
  have hsort : ((obsOf d S).map Prod.fst).Pairwise (· < ·) := obsOf_sorted hpw hnd
  have hdvd : ∀ o ∈ (obsOf d S).map Prod.fst, w ∣ o := by
    intro o ho
    obtain ⟨x, hx, hxo⟩ := List.mem_map.mp ho
    have hmem := mem_obsOf.mp hx
    rw [hS] at hmem
    have hdv := output_false_key_dvd hmem
    rw [← hxo]
    exact hdv
  have hspec := resampleFfill_spec hw hsort hdvd hhead hlast
  have hkc : (0 : Int) ≤ (k : Int) := Int.natCast_nonneg k
  have h1 : w * (k : Int) ≤ bmax - b0 := by linarith
  have hD : (0 : Int) ≤ bmax - b0 :=
    le_trans (mul_nonneg (le_of_lt hw) hkc) h1
  have hwn : ((w.toNat : Int)) = w := Int.toNat_of_nonneg (le_of_lt hw)
  have h2 : k * w.toNat ≤ (bmax - b0).toNat := by
    apply (Int.le_toNat hD).mpr
    push_cast
    rw [hwn, mul_comm]
    exact h1
  have hkn : k < (bmax - b0).toNat / w.toNat + 1 :=
    Nat.lt_succ_of_le ((Nat.le_div_iff_mul_le (by omega : 0 < w.toNat)).mpr h2)
  have hb0mem : (b0, m0) ∈ obsOf d S := by
    cases hob : obsOf d S with
    | nil =>
      rw [hob] at hhead
      simp at hhead
    | cons p rest =>
      rw [hob, List.head?_cons] at hhead
      obtain rfl := Option.some.inj hhead
      exact List.mem_cons_self _ _
  have hb0bin : b0 ∈ (obsOf d S).map Prod.fst :=
    List.mem_map.mpr ⟨(b0, m0), hb0mem, rfl⟩
  have hble : b0 ≤ b0 + w * (k : Int) := by
    have h3 : 0 ≤ w * (k : Int) := mul_nonneg (le_of_lt hw) hkc
    linarith
  obtain ⟨v, hv⟩ := lastObsLE_isSome hble hb0bin
  refine ⟨v, ?_, hv⟩
  have hseg : (b0 + w * (k : Int), v) ∈ resampleFfill w (obsOf d S) := by
    rw [hspec]
    apply List.mem_map.mpr
    refine ⟨k, List.mem_range.mpr hkn, ?_⟩
    rw [hv]
    rfl
  have hdin : d ∈ (S.map fun p => p.1.2).dedup := by
    rw [List.mem_dedup]
    exact List.mem_map.mpr ⟨((b0, d), m0), mem_obsOf.mp hb0mem, rfl⟩
  apply (mem_sortEntries _).mpr
  apply List.mem_flatten.mpr
  refine ⟨(resampleFfill w (obsOf d S)).map fun q => ((q.1, d), q.2), ?_, ?_⟩
  · exact List.mem_map.mpr ⟨d, hdin, rfl⟩
  · exact List.mem_map.mpr ⟨(b0 + w * (k : Int), v), hseg, rfl⟩

/-- Witness for C1: device `"X"` observed at bins 60 and 180; the middle
bin 120 (k = 1) is covered by the gap-filled table and carries the most
recent earlier value. -/
theorem gap_fill_covers_contiguous_range_witness :
    ∃ v, ((60 + 60 * ((1 : Nat) : Int), "X"), v) ∈
        id_to_member_mapping id [⟨65, "X", "A"⟩, ⟨190, "X", "C"⟩] 60 "US/Eastern" true ∧
      lastObsLE (obsOf "X"
          (id_to_member_mapping id [⟨65, "X", "A"⟩, ⟨190, "X", "C"⟩] 60 "US/Eastern" false))
        (60 + 60 * ((1 : Nat) : Int)) = some v :=
  gap_fill_covers_contiguous_range id [⟨65, "X", "A"⟩, ⟨190, "X", "C"⟩] 60 "US/Eastern"
    "X" 60 180 "A" "C" (by decide) (by decide) (by decide) 1 (by decide)

lemma nodup_eq_singleton {α : Type} {l : List α} {a : α} (hnd : l.Nodup)
    (h : ∀ x, x ∈ l ↔ x = a) : l = [a] := by
  cases l with
  | nil => exact absurd ((h a).mpr rfl) (List.not_mem_nil a)
  | cons x t =>
    obtain rfl := (h x).mp (List.mem_cons_self x t)
    rw [List.nodup_cons] at hnd
    cases t with
    | nil => rfl
    | cons y t' =>
      obtain rfl := (h y).mp (List.mem_cons_of_mem _ (List.mem_cons_self y t'))
      exact absurd (List.mem_cons_self _ t') hnd.1

lemma obsOf_nodup {d : String} {s : List ((Int × String) × String)}
    (hnd : (s.map Prod.fst).Nodup) : (obsOf d s).Nodup := by
  have hknd : s.Pairwise fun p q => p.1 ≠ q.1 := List.pairwise_map.mp hnd
  apply List.Pairwise.filterMap _ ?_ hknd
  rintro p q hne x hx y hy
  by_cases hpd : p.1.2 = d
  · by_cases hqd : q.1.2 = d
    · rw [Option.mem_def, if_pos hpd] at hx
      rw [Option.mem_def, if_pos hqd] at hy
      obtain rfl := Option.some.inj hx
      obtain rfl := Option.some.inj hy
      intro hxy
      obtain ⟨h1, _⟩ := Prod.mk.inj hxy
      exact hne (Prod.ext h1 (hpd.trans hqd.symm))
    · rw [Option.mem_def, if_neg hqd] at hy
      exact absurd hy (by simp)
  · rw [Option.mem_def, if_neg hpd] at hx
    exact absurd hx (by simp)

lemma obsOf_flatten {d : String} {L : List (List ((Int × String) × String))} :
    obsOf d L.flatten = (L.map (obsOf d)).flatten := by
  induction L with
  | nil => rfl
  | cons a t ih => simp only [obsOf, List.flatten_cons, List.filterMap_append,
      List.map_cons] at ih ⊢; rw [ih]

lemma obsOf_segment {d e : String} {l : List (Int × String)} :
    obsOf d (l.map fun q => ((q.1, e), q.2)) = if e = d then l else [] := by
  simp only [obsOf, List.filterMap_map]
  by_cases hed : e = d
  · subst hed
    rw [if_pos rfl]
    have : ((fun p : (Int × String) × String =>
        if p.1.2 = e then some (p.1.1, p.2) else none) ∘
          fun q : Int × String => ((q.1, e), q.2)) = some := by
      funext q
      simp
    rw [this, List.filterMap_some]
  · rw [if_neg hed]
    have : ((fun p : (Int × String) × String =>
        if p.1.2 = d then some (p.1.1, p.2) else none) ∘
          fun q : Int × String => ((q.1, e), q.2)) = fun _ => none := by
      funext q
      simp [hed]
    rw [this]
    exact List.filterMap_eq_nil_iff.mpr fun a _ => rfl

lemma flatten_eq_nil_of_all {β : Type} :
    ∀ {L : List (List β)}, (∀ l ∈ L, l = []) → L.flatten = []
  | [], _ => rfl
  | a :: t, h => by
    rw [List.flatten_cons, h a (List.mem_cons_self _ _), List.nil_append]
    exact flatten_eq_nil_of_all fun l hl => h l (List.mem_cons_of_mem _ hl)

lemma flatten_eq_of_single {β : Type} {d : String} (F : String → List β) :
    ∀ {L : List String}, L.Nodup → d ∈ L → (∀ e ∈ L, e ≠ d → F e = []) →
      (L.map F).flatten = F d
  | [], _, hdmem, _ => absurd hdmem (List.not_mem_nil d)
  | a :: t, hnd, hdmem, h0 => by
    rw [List.nodup_cons] at hnd
    rcases List.mem_cons.mp hdmem with rfl | hdt
    · have ht0 : ∀ e ∈ t, F e = [] := fun e he =>
        h0 e (List.mem_cons_of_mem _ he) fun hed => hnd.1 (hed ▸ he)
      have htnil : (t.map F).flatten = [] := by
        apply flatten_eq_nil_of_all
        intro l hl
        obtain ⟨e, he, rfl⟩ := List.mem_map.mp hl
        exact ht0 e he
      rw [List.map_cons, List.flatten_cons, htnil, List.append_nil]
    · have ha0 : F a = [] := h0 a (List.mem_cons_self _ _) fun had => by
        exact hnd.1 (by rw [had]; exact hdt)
      rw [List.map_cons, List.flatten_cons, ha0, List.nil_append]
      exact flatten_eq_of_single F hnd.2 hdt fun e he hed =>
        h0 e (List.mem_cons_of_mem _ he) hed

lemma ffillWalk_bins {w : Int} {obs : List (Int × String)} :
    ∀ (n : Nat) (last : String) (b : Int),
      (ffillWalk w obs last b n).map Prod.fst =
        (List.range n).map fun i : Nat => b + w * (i : Int)
  | 0, _, _ => rfl
  | Nat.succ n, last, b => by
    cases hlk : lookupKey b obs with
    | some m =>
      simp only [ffillWalk, hlk, List.map_cons]
      rw [ffillWalk_bins n m (b + w), List.range_succ_eq_map, List.map_cons,
        List.map_map]
      congr 1
      · simp
      · apply List.map_congr_left
        intro i hi
        simp only [Function.comp]
        push_cast
        ring
    | none =>
      simp only [ffillWalk, hlk, List.map_cons]
      rw [ffillWalk_bins n last (b + w), List.range_succ_eq_map, List.map_cons,
        List.map_map]
      congr 1
      · simp
      · apply List.map_congr_left
        intro i hi
        simp only [Function.comp]
        push_cast
        ring

lemma resampleFfill_bins_pairwise {w : Int} (hw : 0 < w) (obs : List (Int × String)) :
    ((resampleFfill w obs).map Prod.fst).Pairwise (· < ·) := by
  cases obs with
  | nil => simp [resampleFfill]
  | cons p rest =>
    obtain ⟨b0, m0⟩ := p
    simp only [resampleFfill]
    rw [ffillWalk_bins]
    apply (List.pairwise_lt_range _).map
    intro i j hij
    have : (i : Int) < (j : Int) := by exact_mod_cast hij
    nlinarith

lemma fill_keys_nodup {w : Int} (hw : 0 < w) {S : List ((Int × String) × String)} :
    ((_id_to_member_mapping_fill_gaps w S).map Prod.fst).Nodup := by
  apply (((sortEntries_perm fstStrLe _).map Prod.fst).nodup_iff).mpr
  rw [List.map_flatten, List.map_map]
  apply List.nodup_flatten.mpr
  constructor
  · intro l hl
    obtain ⟨e, he, rfl⟩ := List.mem_map.mp hl
    simp only [Function.comp, List.map_map]
    have hbins := resampleFfill_bins_pairwise hw (obsOf e S)
    rw [List.pairwise_map] at hbins
    apply (List.pairwise_map).mpr
    apply hbins.imp
    intro a b hab hcontra
    obtain ⟨h1, _⟩ := Prod.mk.inj hcontra
    rw [h1] at hab
    exact lt_irrefl _ hab
  · have hids : ((S.map fun p => p.1.2).dedup).Pairwise (· ≠ ·) :=
      List.nodup_dedup _
    apply (List.pairwise_map).mpr
    apply hids.imp
    intro e1 e2 hne
    intro x hx1 hx2
    simp only [Function.comp, List.map_map, List.mem_map] at hx1 hx2
    obtain ⟨q1, _, hq1⟩ := hx1
    obtain ⟨q2, _, hq2⟩ := hx2
    rw [← hq1] at hq2
    obtain ⟨_, h2⟩ := Prod.mk.inj hq2
    exact hne h2.symm

/-- C4 amended: for every input, each pipeline's table is sorted
ascending on its full key tuple, and the two grouped pipelines
(`id_to_member_mapping`, for a positive bin width, and `voltages`) are
also unique on the key; `sample_counts` is sorted but performs no
grouping, so it may repeat a key (see the counterexample). -/
theorem outputs_sorted_and_grouped_unique :
    (∀ (macToId : String → String) (records : List ProxRecord) (w : Int) (tz : String)
        (fg : Bool), 0 < w →
        (id_to_member_mapping macToId records w tz fg).Pairwise (onKey fstStrLe) ∧
        ((id_to_member_mapping macToId records w tz fg).map Prod.fst).Nodup) ∧
    (∀ (records : List VoltRecord) (w : Int) (tz : String),
        (voltages records w tz).Pairwise (onKey fstStrLe) ∧
        ((voltages records w tz).map Prod.fst).Nodup) ∧
    (∀ (records : List CountRecord) (tz : String) t,
        sample_counts records tz true = Except.ok (CountTable.withType t) →
        t.Pairwise (onKey fstStr2Le)) ∧
    (∀ (records : List CountRecord) (tz : String) t,
        sample_counts records tz false = Except.ok (CountTable.noType t) →
        t.Pairwise (onKey fstStrLe)) := by
  refine ⟨?_, ?_, ?_, ?_⟩
  · intro macToId records w tz fg hw
    cases fg
    · exact ⟨sortEntries_sorted _ _, sortEntries_keys_nodup _ firstByKey_keys_nodup⟩
    · constructor
      · show List.Pairwise (onKey fstStrLe)
          (_id_to_member_mapping_fill_gaps w
            (sortEntries fstStrLe (firstByKey (mm_rows macToId w tz records))))
        exact sortEntries_sorted _ _
      · exact fill_keys_nodup hw
  · intro records w tz
    constructor
    · simp only [voltages]
      apply (List.pairwise_map).mpr
      exact (List.sorted_insertionSort (@fstStrLe Int _)
        (((volt_rows w tz records).map Prod.fst).dedup)).imp fun h => h
    · simp only [voltages, List.map_map]
      have heq : (Prod.fst ∘ fun k : Int × String =>
          (k, (valuesFor k (volt_rows w tz records)).sum /
            ((valuesFor k (volt_rows w tz records)).length : ℚ))) = id := by
        funext k
        rfl
      rw [heq, List.map_id]
      exact ((List.perm_insertionSort _ _).nodup_iff).mpr (List.nodup_dedup _)
  · intro records tz t ht
    simp only [sample_counts] at ht
    cases hcr : count_rows tz records with
    | error e =>
      rw [hcr, except_map_error] at ht
      exact absurd ht (by simp)
    | ok rows =>
      rw [hcr, except_map_ok] at ht
      obtain ht2 := Except.ok.inj ht
      rw [if_true] at ht2
      obtain rfl := CountTable.withType.inj ht2
      exact sortEntries_sorted _ _
  · intro records tz t ht
    simp only [sample_counts] at ht
    cases hcr : count_rows tz records with
    | error e =>
      rw [hcr, except_map_error] at ht
      exact absurd ht (by simp)
    | ok rows =>
      rw [hcr, except_map_ok] at ht
      obtain ht2 := Except.ok.inj ht
      rw [if_neg (by decide)] at ht2
      obtain rfl := CountTable.noType.inj ht2
      exact sortEntries_sorted _ _

/-- Witness for the C4 amended theorem: the gap-filled identity table of
a concrete input is sorted with unique keys, and a concrete count table
is sorted. -/
theorem outputs_sorted_and_grouped_unique_witness :
    ((id_to_member_mapping id [⟨65, "X", "A"⟩] 60 "US/Eastern" true).Pairwise
        (onKey fstStrLe) ∧
      ((id_to_member_mapping id [⟨65, "X", "A"⟩] 60 "US/Eastern" true).map
        Prod.fst).Nodup) ∧
    ([((1000, "alice"), -1)] : List ((ℚ × String) × Int)).Pairwise (onKey fstStrLe) :=
  ⟨outputs_sorted_and_grouped_unique.1 id [⟨65, "X", "A"⟩] 60 "US/Eastern" true
      (by decide),
   outputs_sorted_and_grouped_unique.2.2.2 [⟨"unknown type", 1000, "alice", none, none⟩]
      "US/Eastern" [((1000, "alice"), -1)] rfl⟩

lemma resampleFfill_singleton {w b : Int} {m : String} :
    resampleFfill w [(b, m)] = [(b, m)] := by
  have hlk : lookupKey b [(b, m)] = some m := by simp [lookupKey]
  simp only [resampleFfill]
  norm_num
  simp [ffillWalk, hlk]

/-- C9: a device observed in exactly one time bin `b` (it appears in the
input and every one of its records falls in bin `b`) produces exactly one
row in the identity table, whether `fill_gaps` is true or false; that
row carries the first observed member value for the device, so it is
never forward-filled from a nonexistent earlier bin. -/
theorem single_bin_device_single_row (macToId : String → String)
    (records : List ProxRecord) (w : Int) (tz : String) (d : String) (b : Int)
    (hw : 0 < w)
    (hmem : ∃ r ∈ records, macToId r.badge_address = d ∧
      binOf w (normalize_timestamp tz r.timestamp).instant = b)
    (hall : ∀ r ∈ records, macToId r.badge_address = d →
      binOf w (normalize_timestamp tz r.timestamp).instant = b) :
    ∃ m, lookupKey ((b, d)) (mm_rows macToId w tz records) = some m ∧
      ∀ fg : Bool, obsOf d (id_to_member_mapping macToId records w tz fg) = [(b, m)] := by
  obtain ⟨r0, hr0, hd0, hb0⟩ := hmem
  have hrowmem : ((b, d), r0.member) ∈ mm_rows macToId w tz records :=
    List.mem_map.mpr ⟨r0, hr0, by rw [hb0, hd0]⟩
  have hkmem : (b, d) ∈ (mm_rows macToId w tz records).map Prod.fst :=
    List.mem_map.mpr ⟨((b, d), r0.member), hrowmem, rfl⟩
  cases hlk : lookupKey (b, d) (mm_rows macToId w tz records) with
  | none => exact absurd hkmem (lookupKey_eq_none.mp hlk)
  | some m =>
  refine ⟨m, rfl, ?_⟩
  have hfbk : ∀ x : Int × String,
      x ∈ obsOf d (firstByKey (mm_rows macToId w tz records)) ↔ x = (b, m) := by
    intro x
    rw [mem_obsOf, firstByKey_mem]
    constructor
    · intro hx
      have hxmem := mem_of_lookupKey_eq_some hx
      obtain ⟨r, hr, heq⟩ := List.mem_map.mp hxmem
      obtain ⟨h1, h2⟩ := Prod.mk.inj heq
      obtain ⟨h11, h12⟩ := Prod.mk.inj h1
      have hbr : binOf w (normalize_timestamp tz r.timestamp).instant = b :=
        hall r hr h12
      have hx1 : x.1 = b := by rw [← h11, hbr]
      rw [hx1, hlk] at hx
      obtain hx2 := Option.some.inj hx
      exact Prod.ext hx1 hx2.symm
    · rintro rfl
      exact hlk
  have hnd1 : (obsOf d (firstByKey (mm_rows macToId w tz records))).Nodup :=
    obsOf_nodup firstByKey_keys_nodup
  have hsingle : obsOf d (firstByKey (mm_rows macToId w tz records)) = [(b, m)] :=
    nodup_eq_singleton hnd1 hfbk
  set S := sortEntries fstStrLe (firstByKey (mm_rows macToId w tz records)) with hSdef
  have hS : obsOf d S = [(b, m)] := by
    have hp : (obsOf d S).Perm (obsOf d (firstByKey (mm_rows macToId w tz records))) :=
      (sortEntries_perm fstStrLe _).filterMap _
    rw [hsingle] at hp
    exact List.perm_singleton.mp hp
  intro fg
  cases fg
  · exact hS
  · show obsOf d (_id_to_member_mapping_fill_gaps w S) = [(b, m)]
    have hperm : (obsOf d (_id_to_member_mapping_fill_gaps w S)).Perm
        (obsOf d ((((S.map fun p => p.1.2).dedup).map fun e =>
          (resampleFfill w (obsOf e S)).map fun q => ((q.1, e), q.2)).flatten)) :=
      (sortEntries_perm fstStrLe _).filterMap _
    have hflat : obsOf d ((((S.map fun p => p.1.2).dedup).map fun e =>
        (resampleFfill w (obsOf e S)).map fun q => ((q.1, e), q.2)).flatten) =
          [(b, m)] := by
      rw [obsOf_flatten, List.map_map]
      have hfun : ((obsOf d) ∘ fun e =>
          (resampleFfill w (obsOf e S)).map fun q => ((q.1, e), q.2)) = fun e =>
            if e = d then resampleFfill w (obsOf e S) else [] := by
        funext e
        simp only [Function.comp]
        exact obsOf_segment
      rw [hfun]
      have hbmS : ((b, d), m) ∈ S := by
        have h1 : ((b : Int), m) ∈ obsOf d S := by
          rw [hS]
          exact List.mem_cons_self _ _
        exact mem_obsOf.mp h1
      have hdin : d ∈ (S.map fun p => p.1.2).dedup := by
        rw [List.mem_dedup]
        exact List.mem_map.mpr ⟨((b, d), m), hbmS, rfl⟩
      rw [flatten_eq_of_single _ (List.nodup_dedup _) hdin
        (fun e he hed => by rw [if_neg hed])]
      rw [if_pos rfl, hS]
      exact resampleFfill_singleton
    rw [hflat] at hperm
    exact List.perm_singleton.mp hperm

/-- Witness for C9: device `"X"` with two records in the single bin 60
yields exactly one row (with the first member, `"A"`) for both settings
of the gap-fill flag. -/
theorem single_bin_device_single_row_witness :
    ∃ m, lookupKey (((60 : Int), "X"))
        (mm_rows id 60 "US/Eastern" [⟨65, "X", "A"⟩, ⟨70, "X", "B"⟩]) = some m ∧
      ∀ fg : Bool, obsOf "X"
        (id_to_member_mapping id [⟨65, "X", "A"⟩, ⟨70, "X", "B"⟩] 60 "US/Eastern" fg) =
          [(60, m)] :=
  single_bin_device_single_row id [⟨65, "X", "A"⟩, ⟨70, "X", "B"⟩] 60 "US/Eastern"
    "X" 60 (by decide) (by decide) (by decide)

end Metadata
